import Mathlib
/-!
Formal model of `src/datasets/coloc.py` (class `GenerateColocDataset`).

The task is a Hadoop-streaming map/reduce job over tab-separated text lines.
Python strings are modelled as lists of characters (`Str`), so that the exact
splitting behaviour of `line.split('\t')` (every tab is a separator, empty
fields are kept, the empty string gives one empty field) can be stated and
proved.  The mapper, the reducer, and the streaming framework's key extraction
(`stream.num.map.output.key.fields=3`), grouping and partitioning
(`mapred.text.key.partitioner.options=-k1,1`) are each embedded below.
-/
/-- Characters of one text line; a Python string is modelled as its list of
characters. -/
abbrev Str := List Char
/-- The tab character, the field separator used throughout the job. -/
def TAB : Char := '\t'
/-- Python's `line.split('\t')`: splits on every tab, keeps empty fields, and
the empty string yields a single empty field.  Models `line.split('\t')` in
`GenerateColocDataset.mapper`. -/
def splitTab : Str → List Str
  | [] => [[]]
  | c :: rest =>
    match splitTab rest with
    | f :: fs => if c = TAB then [] :: f :: fs else (c :: f) :: fs
    | [] => [[]]
/-- Python's `'\t'.join(fields)`: interleaves a tab between fields. -/
def joinTab : List Str → Str
  | [] => []
  | [f] => f
  | f :: fs => f ++ TAB :: joinTab fs
/-- `GenerateColocDataset.mapper` (src/datasets/coloc.py lines 122-144): split
the line on tabs; a 3-field line `B\tP\tC` becomes the normalized Frequency
line `freqn-B\tP\t\tC` (an empty secondary-key field is inserted); every other
line is emitted unchanged with the `coloc-` type tag prepended. -/
def mapper (line : Str) : Str :=
  let parts := splitTab line
  if parts.length = 3 then
    "freqn-".toList ++ parts.headI ++ TAB :: (parts.tail.headI ++ TAB :: TAB :: parts.tail.tail.headI)
  else
    "coloc-".toList ++ line
/-- A nonempty all-digit string read as a decimal number. -/
def parseDigits (s : Str) : Option Nat :=
  if s ≠ [] ∧ s.all Char.isDigit then
    some (s.foldl (fun a c => 10 * a + (c.toNat - 48)) 0)
  else none
/-- Python `int(v)` as the reducer applies it to count fields: an optional
sign followed by decimal digits; `none` models the `ValueError` Python raises
on any other string.  Python `int` is arbitrary-precision, hence the result is
an unbounded `Int`. -/
def parseInt (s : Str) : Option Int :=
  match s with
  | '-' :: rest => (parseDigits rest).map (fun n => -(n : Int))
  | '+' :: rest => (parseDigits rest).map (fun n => (n : Int))
  | _ => (parseDigits s).map (fun n => (n : Int))
/-- The spec's record type tag: Frequency for 3-field lines, Cooccurrence for
4-field lines. -/
inductive RecordType
  | Frequency
  | Cooccurrence
  deriving DecidableEq
/-- The spec's ClassifiedRecord data model (spec section 3). -/
structure ClassifiedRecord where
  recordType : RecordType
  bucket : Str
  primaryKey : Str
  secondaryKey : Str
  count : Int
  deriving DecidableEq
/-- The string tag the mapper prepends for each record type. -/
def typeTag : RecordType → Str
  | RecordType.Frequency => "freqn-".toList
  | RecordType.Cooccurrence => "coloc-".toList
/-- Reads a normalized mapper output line (4 tab-separated fields, the first
carrying the `freqn-`/`coloc-` type tag) back into the spec's record form.
This is the abstraction function tying the code's string representation to the
spec's ClassifiedRecord. -/
def parseNormalized (s : Str) : Option ClassifiedRecord :=
  match splitTab s with
  | [k, p, sk, c] =>
    if k.take 6 = "freqn-".toList then
      (parseInt c).map (fun n => ⟨RecordType.Frequency, k.drop 6, p, sk, n⟩)
    else if k.take 6 = "coloc-".toList then
      (parseInt c).map (fun n => ⟨RecordType.Cooccurrence, k.drop 6, p, sk, n⟩)
    else none
  | _ => none
/-- The spec's `classify`: the record-level reading of what the code's mapper
produces for a line. -/
def classify (line : Str) : Option ClassifiedRecord := parseNormalized (mapper line)
/-- Hadoop streaming key extraction, configured by
`stream.num.map.output.key.fields=3` (src/datasets/coloc.py, `jobconfs`): the
first three tab-separated fields of a mapper output line form the reduce key
and the remainder is the value; a line with at most three fields is all key,
with an empty value. -/
def keyValueOf (s : Str) : Str × Str :=
  let parts := splitTab s
  if parts.length ≤ 3 then (s, [])
  else (joinTab (parts.take 3), joinTab (parts.drop 3))
/-- `GenerateColocDataset.reducer` (src/datasets/coloc.py lines 146-160):
`yield key, sum(int(v) for v in values)`; `none` models the `ValueError`
raised when some value fails to parse as an integer. -/
def reducer (key : Str) (values : List Str) : Option (Str × Int) :=
  (values.mapM parseInt).map (fun ns => (key, ns.sum))
/-- The multiset of values the shuffle delivers to the reducer for key `k`. -/
def groupValues (pairs : List (Str × Str)) (k : Str) : List Str :=
  (pairs.filter (fun q => decide (q.1 = k))).map Prod.snd
/-- The distinct reduce keys occurring in a run, each once. -/
def distinctKeys (pairs : List (Str × Str)) : List Str :=
  (pairs.map Prod.fst).dedup
/-- The reduce phase: the shuffle groups the key/value pairs by exact key and
the reducer is run once per distinct key over that key's values. -/
def aggregate (pairs : List (Str × Str)) : Option (List (Str × Int)) :=
  (distinctKeys pairs).mapM (fun k => reducer k (groupValues pairs k))
/-- The exact integer sum of the parseable count values sharing key `k`. -/
def countSum (pairs : List (Str × Str)) (k : Str) : Int :=
  ((groupValues pairs k).filterMap parseInt).sum
/-- Decimal digits of a natural number. -/
def natStr (n : Nat) : Str := Nat.toDigits 10 n
/-- Python `str` of an integer, as the streaming runner prints totals. -/
def intStr (t : Int) : Str :=
  if t < 0 then '-' :: natStr t.natAbs else natStr t.natAbs
/-- Modelled from the spec: the job's output format
`uk.bl.wa.hadoop.mapreduce.io.NamedByFirstKeyMultiOutputFormat` (named at
src/datasets/coloc.py, `output_format`) is external jar code not present under
the sources; per the source docstrings ("create a prefix depending on the type
and date range, used to make a filename for the output"; "a custom multiple
output format to create a different file based on that prefix") it routes each
reduce output to the destination named by the first tab-separated field of its
key. -/
def outputDestination (key : Str) : Str := (splitTab key).headI
/-- Modelled from the spec (the same external output format): the line written
at the destination, with the routing field dropped and the total appended. -/
def routedLine (key : Str) (total : Int) : Str :=
  joinTab (splitTab key).tail ++ TAB :: intStr total
/-- The whole job on a batch of input lines: map, extract keys, shuffle,
reduce, route. -/
def pipeline (lines : List Str) : Option (List (Str × Str)) :=
  (aggregate (lines.map (fun l => keyValueOf (mapper l)))).map
    (fun recs => recs.map (fun r => (outputDestination r.1, routedLine r.1 r.2)))
/-- The record type the mapper assigns a raw line: Frequency when the line
has exactly 3 tab-separated fields, Cooccurrence otherwise. -/
def recordTypeOf (line : Str) : RecordType :=
  if (splitTab line).length = 3 then RecordType.Frequency else RecordType.Cooccurrence

/-- The bucket (leading field) of a raw line. -/
def bucketOf (line : Str) : Str := (splitTab line).headI

/-- The coarse distribution key of a line's mapper output: its first
tab-separated field, the one `mapred.text.key.partitioner.options=-k1,1`
(src/datasets/coloc.py, `jobconfs`) partitions on. -/
def coarseKey (line : Str) : Str := (splitTab (mapper line)).headI

/-- The fine grouping key of a line's mapper output: its first three
tab-separated fields, per `stream.num.map.output.key.fields=3`. -/
def fineKey (line : Str) : List Str := (splitTab (mapper line)).take 3

theorem splitTab_ne_nil (s : Str) : splitTab s ≠ [] := by
  induction s with
  | nil => simp [splitTab]
  | cons c rest ih =>
    rw [splitTab]
    cases h : splitTab rest with
    | nil => simp
    | cons f fs => by_cases hc : c = TAB <;> simp [hc]
theorem splitTab_tab_cons (s : Str) : splitTab (TAB :: s) = [] :: splitTab s := by
  rw [splitTab]
  cases h : splitTab s with
  | nil => exact absurd h (splitTab_ne_nil s)
  | cons f fs => simp
theorem splitTab_of_noTab {s : Str} (h : TAB ∉ s) : splitTab s = [s] := by
  induction s with
  | nil => rfl
  | cons c rest ih =>
    rw [splitTab]
    have hc : c ≠ TAB := fun hc => h (hc ▸ List.mem_cons_self c rest)
    have hrest : TAB ∉ rest := fun hr => h (List.mem_cons_of_mem c hr)
    rw [ih hrest]
    simp [hc]
theorem splitTab_append_of_noTab {a : Str} (h : TAB ∉ a) (s : Str) {f : Str}
    {fs : List Str} (hs : splitTab s = f :: fs) :
    splitTab (a ++ s) = (a ++ f) :: fs := by
  induction a with
  | nil => simpa using hs
  | cons c a ih =>
    have hc : c ≠ TAB := fun hc => h (hc ▸ List.mem_cons_self c a)
    have ha : TAB ∉ a := fun hr => h (List.mem_cons_of_mem c hr)
    rw [List.cons_append, splitTab, ih ha]
    simp [hc]
theorem noTab_of_mem_splitTab {s f : Str} (hf : f ∈ splitTab s) : TAB ∉ f := by
  induction s generalizing f with
  | nil =>
    simp [splitTab] at hf
    simp [hf]
  | cons c rest ih =>
    rw [splitTab] at hf
    cases h : splitTab rest with
    | nil => exact absurd h (splitTab_ne_nil rest)
    | cons g gs =>
      rw [h] at hf
      by_cases hc : c = TAB
      · simp [hc] at hf
        rcases hf with hf | hf | hf
        · simp [hf]
        · exact ih (hf ▸ h ▸ List.mem_cons_self g gs)
        · exact ih (h ▸ List.mem_cons_of_mem g hf)
      · simp [hc] at hf
        rcases hf with hf | hf
        · subst hf
          intro hmem
          rcases List.mem_cons.mp hmem with rfl | hmem
          · exact hc rfl
          · exact ih (h ▸ List.mem_cons_self g gs) hmem
        · exact ih (h ▸ List.mem_cons_of_mem g hf)
theorem joinTab_splitTab (s : Str) : joinTab (splitTab s) = s := by
  induction s with
  | nil => rfl
  | cons c rest ih =>
    rw [splitTab]
    cases h : splitTab rest with
    | nil => exact absurd h (splitTab_ne_nil rest)
    | cons f fs =>
      rw [h] at ih
      show joinTab (if c = TAB then [] :: f :: fs else (c :: f) :: fs) = c :: rest
      by_cases hc : c = TAB
      · rw [if_pos hc]
        have e : joinTab ([] :: f :: fs) = TAB :: joinTab (f :: fs) := rfl
        rw [e, ih, hc]
      · rw [if_neg hc]
        cases fs with
        | nil =>
          have e : joinTab [c :: f] = c :: f := rfl
          have e2 : joinTab [f] = f := rfl
          rw [e2] at ih
          rw [e, ih]
        | cons g gs =>
          have e : joinTab ((c :: f) :: g :: gs) = (c :: f) ++ TAB :: joinTab (g :: gs) := rfl
          have e2 : joinTab (f :: g :: gs) = f ++ TAB :: joinTab (g :: gs) := rfl
          rw [e2] at ih
          rw [e, List.cons_append, ih]
theorem splitTab_joinTab {fs : List Str} (hne : fs ≠ [])
    (hf : ∀ f ∈ fs, TAB ∉ f) : splitTab (joinTab fs) = fs := by
  induction fs with
  | nil => exact absurd rfl hne
  | cons f gs ih =>
    cases gs with
    | nil =>
      rw [joinTab, splitTab_of_noTab (hf f (List.mem_cons_self f []))]
    | cons g hs =>
      have hjoin : joinTab (f :: g :: hs) = f ++ TAB :: joinTab (g :: hs) := rfl
      rw [hjoin]
      have hrec : splitTab (joinTab (g :: hs)) = g :: hs :=
        ih (by simp) (fun x hx => hf x (List.mem_cons_of_mem f hx))
      have htab : splitTab (TAB :: joinTab (g :: hs)) = [] :: g :: hs := by
        rw [splitTab_tab_cons, hrec]
      have := splitTab_append_of_noTab (hf f (List.mem_cons_self f _))
        (TAB :: joinTab (g :: hs)) htab
      simpa using this
theorem mapper_of_three {line b p c : Str} (h : splitTab line = [b, p, c]) :
    mapper line = "freqn-".toList ++ b ++ TAB :: (p ++ TAB :: TAB :: c) := by
  simp [mapper, h]
theorem mapper_of_not_three {line : Str} (h : (splitTab line).length ≠ 3) :
    mapper line = "coloc-".toList ++ line := by
  simp [mapper, h]
theorem splitTab_mapper_of_three {line b p c : Str} (h : splitTab line = [b, p, c]) :
    splitTab (mapper line) = ["freqn-".toList ++ b, p, [], c] := by
  have hb : TAB ∉ b := noTab_of_mem_splitTab (by rw [h]; exact List.mem_cons_self b [p, c])
  have hp : TAB ∉ p := noTab_of_mem_splitTab
    (by rw [h]; exact List.mem_cons_of_mem b (List.mem_cons_self p [c]))
  have hc : TAB ∉ c := noTab_of_mem_splitTab
    (by rw [h]; exact List.mem_cons_of_mem b (List.mem_cons_of_mem p (List.mem_cons_self c [])))
  have h1 : splitTab c = [c] := splitTab_of_noTab hc
  have h2 : splitTab (TAB :: c) = [[], c] := by rw [splitTab_tab_cons, h1]
  have h3 : splitTab (TAB :: TAB :: c) = [[], [], c] := by rw [splitTab_tab_cons, h2]
  have h4 : splitTab (p ++ TAB :: TAB :: c) = [p, [], c] := by
    have := splitTab_append_of_noTab hp (TAB :: TAB :: c) h3
    simpa using this
  have h5 : splitTab (TAB :: (p ++ TAB :: TAB :: c)) = [[], p, [], c] := by
    rw [splitTab_tab_cons, h4]
  have hfb : TAB ∉ ("freqn-".toList ++ b) := by
    intro hmem
    rcases List.mem_append.mp hmem with hm | hm
    · revert hm; decide
    · exact hb hm
  have h6 := splitTab_append_of_noTab hfb (TAB :: (p ++ TAB :: TAB :: c)) h5
  rw [mapper_of_three h]
  simpa [List.append_assoc] using h6
theorem splitTab_coloc_append {line f : Str} {fs : List Str}
    (h : splitTab line = f :: fs) :
    splitTab ("coloc-".toList ++ line) = ("coloc-".toList ++ f) :: fs :=
  splitTab_append_of_noTab (by decide) line h
theorem classify_of_three {line b p c : Str} (h : splitTab line = [b, p, c])
    {n : Int} (hn : parseInt c = some n) :
    classify line = some ⟨RecordType.Frequency, b, p, [], n⟩ := by
  unfold classify parseNormalized
  rw [splitTab_mapper_of_three h]
  have ht : ("freqn-".toList ++ b).take 6 = "freqn-".toList := List.take_left' (by decide)
  have hd : ("freqn-".toList ++ b).drop 6 = b := List.drop_left' (by decide)
  simp [ht, hd, hn]
theorem classify_of_four {line b p s c : Str} (h : splitTab line = [b, p, s, c])
    {n : Int} (hn : parseInt c = some n) :
    classify line = some ⟨RecordType.Cooccurrence, b, p, s, n⟩ := by
  have hlen : (splitTab line).length ≠ 3 := by simp [h]
  unfold classify parseNormalized
  rw [mapper_of_not_three hlen, splitTab_coloc_append h]
  have ht : ("coloc-".toList ++ b).take 6 = "coloc-".toList := List.take_left' (by decide)
  have hd : ("coloc-".toList ++ b).drop 6 = b := List.drop_left' (by decide)
  have hne : ("coloc-".toList ++ b).take 6 ≠ "freqn-".toList := by rw [ht]; decide
  simp [ht, hd, hne, hn]
/-- C1: for every input line splitting on tab into exactly 3 fields
`[bucket, primaryKey, countStr]`, the mapper produces the normalized line
`freqn-<bucket>\t<primaryKey>\t\t<countStr>`, which reads back as a Frequency
record with that bucket and primaryKey, an empty secondaryKey, and count equal
to the parsed trailing field. -/
theorem C1_freq_mapper (line b p c : Str) (h : splitTab line = [b, p, c]) :
    mapper line = "freqn-".toList ++ b ++ TAB :: (p ++ TAB :: TAB :: c) ∧
    ∀ n : Int, parseInt c = some n →
      classify line = some ⟨RecordType.Frequency, b, p, [], n⟩ :=
  ⟨mapper_of_three h, fun _ hn => classify_of_three h hn⟩
/-- Witness for C1 on the concrete line `201701\taa\t5`. -/
theorem C1_freq_mapper_witness :
    mapper "201701\taa\t5".toList =
      "freqn-".toList ++ "201701".toList ++ TAB ::
        ("aa".toList ++ TAB :: TAB :: "5".toList) ∧
    classify "201701\taa\t5".toList =
      some ⟨RecordType.Frequency, "201701".toList, "aa".toList, [], 5⟩ :=
  ⟨(C1_freq_mapper "201701\taa\t5".toList "201701".toList "aa".toList "5".toList
      (by decide)).1,
   (C1_freq_mapper "201701\taa\t5".toList "201701".toList "aa".toList "5".toList
      (by decide)).2 5 (by decide)⟩
/-- C2: for every input line splitting on tab into exactly 4 fields
`[bucket, primaryKey, secondaryKey, countStr]`, the mapper emits `coloc-`
prepended to the unmodified line, which reads back as a Cooccurrence record
carrying all four fields unchanged, the third as secondaryKey. -/
theorem C2_coloc_mapper (line b p s c : Str) (h : splitTab line = [b, p, s, c]) :
    mapper line = "coloc-".toList ++ line ∧
    splitTab (mapper line) = ["coloc-".toList ++ b, p, s, c] ∧
    ∀ n : Int, parseInt c = some n →
      classify line = some ⟨RecordType.Cooccurrence, b, p, s, n⟩ := by
  have hlen : (splitTab line).length ≠ 3 := by simp [h]
  refine ⟨mapper_of_not_three hlen, ?_, fun _ hn => classify_of_four h hn⟩
  rw [mapper_of_not_three hlen]
  exact splitTab_coloc_append h
/-- Witness for C2 on the concrete line `201701\taa\trukc\t2`. -/
theorem C2_coloc_mapper_witness :
    mapper "201701\taa\trukc\t2".toList = "coloc-".toList ++ "201701\taa\trukc\t2".toList ∧
    classify "201701\taa\trukc\t2".toList =
      some ⟨RecordType.Cooccurrence, "201701".toList, "aa".toList, "rukc".toList, 2⟩ :=
  ⟨(C2_coloc_mapper "201701\taa\trukc\t2".toList "201701".toList "aa".toList
      "rukc".toList "2".toList (by decide)).1,
   (C2_coloc_mapper "201701\taa\trukc\t2".toList "201701".toList "aa".toList
      "rukc".toList "2".toList (by decide)).2.2 2 (by decide)⟩
theorem parseNormalized_of_len_ne_four {s : Str}
    (h : (splitTab s).length ≠ 4) : parseNormalized s = none := by
  unfold parseNormalized
  rcases hs : splitTab s with _ | ⟨a, _ | ⟨b, _ | ⟨c, _ | ⟨d, _ | ⟨e, t⟩⟩⟩⟩⟩
  · rfl
  · rfl
  · rfl
  · rfl
  · rw [hs] at h; simp at h
  · rfl
theorem length_splitTab_coloc (line : Str) :
    (splitTab ("coloc-".toList ++ line)).length = (splitTab line).length := by
  rcases hs : splitTab line with _ | ⟨f, fs⟩
  · exact absurd hs (splitTab_ne_nil line)
  · rw [splitTab_coloc_append hs]
    simp
/-- C3 fails on the code: on the 2-field line `201701\taa` (field count
outside {3,4}) the classifier does not fail with any error; it produces an
output record, namely the line with `coloc-` prepended. -/
theorem C3_counterexample_no_malformed_error :
    (splitTab "201701\taa".toList).length = 2 ∧
    mapper "201701\taa".toList = "coloc-201701\taa".toList := by decide
/-- C3 amended: classification never fails.  A line whose tab-field count is
neither 3 nor 4 is still emitted, as the original line with `coloc-`
prepended; it carries no well-formed ClassifiedRecord (the record-level
reading is `none`), and any failure due to such a line surfaces only later,
at the aggregation stage. -/
theorem C3_amended_classification_total (line : Str)
    (h3 : (splitTab line).length ≠ 3) (h4 : (splitTab line).length ≠ 4) :
    mapper line = "coloc-".toList ++ line ∧ classify line = none := by
  refine ⟨mapper_of_not_three h3, ?_⟩
  unfold classify
  rw [mapper_of_not_three h3]
  apply parseNormalized_of_len_ne_four
  rw [length_splitTab_coloc]
  exact h4
/-- Witness for the amended C3 on the concrete 2-field line `201701\taa`. -/
theorem C3_amended_classification_total_witness :
    mapper "201701\taa".toList = "coloc-".toList ++ "201701\taa".toList ∧
    classify "201701\taa".toList = none :=
  C3_amended_classification_total "201701\taa".toList (by decide) (by decide)
/-- C10: the mapper is total — every input line (the empty line included)
yields exactly one output record: a 3-field line yields the normalized
`freqn-` line and every other line, whatever its field count, yields the
original line with `coloc-` prepended; no line is dropped or rejected at the
classification stage. -/
theorem C10_mapper_total (line : Str) :
    ((splitTab line).length = 3 ∧
      mapper line = "freqn-".toList ++ (splitTab line).headI ++ TAB ::
        ((splitTab line).tail.headI ++ TAB :: TAB :: (splitTab line).tail.tail.headI)) ∨
    ((splitTab line).length ≠ 3 ∧ mapper line = "coloc-".toList ++ line) := by
  by_cases h : (splitTab line).length = 3
  · exact Or.inl ⟨h, by simp [mapper, h]⟩
  · exact Or.inr ⟨h, mapper_of_not_three h⟩

theorem mapM_option_eq_map {α β : Type} (g : α → Option β) (f : α → β)
    (l : List α) (h : ∀ a ∈ l, g a = some (f a)) :
    l.mapM g = some (l.map f) := by
  induction l with
  | nil => rfl
  | cons a t ih =>
    rw [List.mapM_cons, h a (List.mem_cons_self a t),
      ih (fun x hx => h x (List.mem_cons_of_mem a hx))]
    rfl

theorem mapM_option_eq_filterMap {α β : Type} (g : α → Option β) (l : List α)
    (h : ∀ a ∈ l, (g a).isSome) : l.mapM g = some (l.filterMap g) := by
  induction l with
  | nil => rfl
  | cons a t ih =>
    rcases Option.isSome_iff_exists.mp (h a (List.mem_cons_self a t)) with ⟨x, hx⟩
    rw [List.mapM_cons, hx, ih (fun y hy => h y (List.mem_cons_of_mem a hy))]
    simp [List.filterMap_cons, hx]

theorem mapM_option_isSome {α β : Type} (g : α → Option β) {l : List α}
    {r : List β} (h : l.mapM g = some r) : ∀ a ∈ l, (g a).isSome := by
  induction l generalizing r with
  | nil => intro a ha; simp at ha
  | cons b t ih =>
    rw [List.mapM_cons] at h
    cases hb : g b with
    | none => rw [hb] at h; simp at h
    | some x =>
      rw [hb] at h
      cases ht : t.mapM g with
      | none => rw [ht] at h; simp at h
      | some xs =>
        intro a ha
        rcases List.mem_cons.mp ha with rfl | ha
        · simp [hb]
        · exact ih ht a ha

theorem mem_groupValues {pairs : List (Str × Str)} {k v : Str} :
    v ∈ groupValues pairs k ↔ ∃ q ∈ pairs, q.1 = k ∧ q.2 = v := by
  unfold groupValues
  simp only [List.mem_map, List.mem_filter, decide_eq_true_eq]
  constructor
  · rintro ⟨q, ⟨hq, hk⟩, hv⟩
    exact ⟨q, hq, hk, hv⟩
  · rintro ⟨q, hq, hk, hv⟩
    exact ⟨q, ⟨hq, hk⟩, hv⟩

theorem reducer_of_allParse {k : Str} {values : List Str}
    (h : ∀ v ∈ values, (parseInt v).isSome) :
    reducer k values = some (k, (values.filterMap parseInt).sum) := by
  unfold reducer
  rw [mapM_option_eq_filterMap parseInt values h]
  rfl

theorem aggregate_of_allParse {pairs : List (Str × Str)}
    (h : ∀ q ∈ pairs, (parseInt q.2).isSome) :
    aggregate pairs =
      some ((distinctKeys pairs).map (fun k => (k, countSum pairs k))) := by
  unfold aggregate
  apply mapM_option_eq_map _ (fun k => (k, countSum pairs k))
  intro k _
  have hvals : ∀ v ∈ groupValues pairs k, (parseInt v).isSome := by
    intro v hv
    rcases mem_groupValues.mp hv with ⟨q, hq, _, hqv⟩
    exact hqv ▸ h q hq
  rw [reducer_of_allParse hvals]
  rfl

theorem allParse_of_aggregate {pairs : List (Str × Str)} {l : List (Str × Int)}
    (h : aggregate pairs = some l) : ∀ q ∈ pairs, (parseInt q.2).isSome := by
  intro q hq
  have hk : q.1 ∈ distinctKeys pairs :=
    List.mem_dedup.mpr (List.mem_map.mpr ⟨q, hq, rfl⟩)
  have hred := mapM_option_isSome _ h q.1 hk
  unfold reducer at hred
  rcases Option.isSome_iff_exists.mp hred with ⟨r, hr⟩
  rcases Option.map_eq_some'.mp hr with ⟨ns, hns, _⟩
  have hv : q.2 ∈ groupValues pairs q.1 :=
    mem_groupValues.mpr ⟨q, hq, rfl, rfl⟩
  exact mapM_option_isSome _ hns q.2 hv

theorem mem_canonical {pairs : List (Str × Str)} {k : Str} {t : Int} :
    (k, t) ∈ (distinctKeys pairs).map (fun j => (j, countSum pairs j)) ↔
      k ∈ pairs.map Prod.fst ∧ t = countSum pairs k := by
  constructor
  · intro h
    rcases List.mem_map.mp h with ⟨j, hj, he⟩
    have hk : j = k := congrArg Prod.fst he
    have ht : countSum pairs j = t := congrArg Prod.snd he
    subst hk
    exact ⟨List.mem_dedup.mp hj, ht.symm⟩
  · rintro ⟨hk, rfl⟩
    exact List.mem_map.mpr ⟨k, List.mem_dedup.mpr hk, rfl⟩

theorem countSum_perm {p1 p2 : List (Str × Str)} (hp : p1.Perm p2) (k : Str) :
    countSum p1 k = countSum p2 k := by
  unfold countSum groupValues
  exact ((((hp.filter (fun q => decide (q.1 = k))).map Prod.snd).filterMap parseInt)).sum_eq

/-- C4: when every count value parses, the aggregator emits exactly one record
per distinct reduce key occurring in the input (the distinct keys, without
duplicates, are exactly the keys occurring in the input), and that record's
total is the sum of the count values sharing the key. -/
theorem C4_aggregate_totals (pairs : List (Str × Str))
    (h : ∀ q ∈ pairs, (parseInt q.2).isSome) :
    aggregate pairs =
      some ((distinctKeys pairs).map (fun k => (k, countSum pairs k))) ∧
    (distinctKeys pairs).Nodup ∧
    ∀ k, k ∈ distinctKeys pairs ↔ k ∈ pairs.map Prod.fst :=
  ⟨aggregate_of_allParse h, List.nodup_dedup _, fun _ => List.mem_dedup⟩

/-- Witness for C4 on three concrete records, two sharing a key. -/
theorem C4_aggregate_totals_witness :
    aggregate [(['a'], ['2']), (['a'], ['3']), (['b'], ['5'])] =
      some ((distinctKeys [(['a'], ['2']), (['a'], ['3']), (['b'], ['5'])]).map
        (fun k => (k, countSum [(['a'], ['2']), (['a'], ['3']), (['b'], ['5'])] k))) ∧
    (distinctKeys [(['a'], ['2']), (['a'], ['3']), (['b'], ['5'])]).Nodup ∧
    ∀ k, k ∈ distinctKeys [(['a'], ['2']), (['a'], ['3']), (['b'], ['5'])] ↔
      k ∈ [(['a'], ['2']), (['a'], ['3']), (['b'], ['5'])].map Prod.fst :=
  C4_aggregate_totals [(['a'], ['2']), (['a'], ['3']), (['b'], ['5'])] (by decide)

/-- C5: aggregation is order-independent.  For any permutation of the multiset
of classified records, every key's total is unchanged, and the aggregator's
output (when defined) contains exactly the same aggregated records. -/
theorem C5_aggregate_perm_invariant (p1 p2 : List (Str × Str)) (hp : p1.Perm p2) :
    (∀ k, countSum p1 k = countSum p2 k) ∧
    ∀ l1, aggregate p1 = some l1 →
      ∃ l2, aggregate p2 = some l2 ∧ ∀ k t, ((k, t) ∈ l1 ↔ (k, t) ∈ l2) := by
  refine ⟨fun k => countSum_perm hp k, ?_⟩
  intro l1 h1
  have hall1 := allParse_of_aggregate h1
  have hall2 : ∀ q ∈ p2, (parseInt q.2).isSome := fun q hq => hall1 q (hp.symm.subset hq)
  refine ⟨_, aggregate_of_allParse hall2, ?_⟩
  rw [aggregate_of_allParse hall1] at h1
  have hl1 : l1 = (distinctKeys p1).map (fun j => (j, countSum p1 j)) :=
    (Option.some.inj h1).symm
  subst hl1
  intro k t
  rw [mem_canonical, mem_canonical, countSum_perm hp k]
  constructor
  · rintro ⟨hk, rfl⟩
    exact ⟨(hp.map Prod.fst).mem_iff.mp hk, rfl⟩
  · rintro ⟨hk, rfl⟩
    exact ⟨(hp.map Prod.fst).mem_iff.mpr hk, rfl⟩

/-- Witness for C5 on a two-record input and its reversal. -/
theorem C5_aggregate_perm_invariant_witness :
    countSum [(['a'], ['2']), (['b'], ['3'])] ['a'] =
      countSum [(['b'], ['3']), (['a'], ['2'])] ['a'] ∧
    ∃ l2, aggregate [(['b'], ['3']), (['a'], ['2'])] = some l2 ∧
      ∀ k t, ((k, t) ∈ [(['a'], (2 : Int)), (['b'], 3)] ↔ (k, t) ∈ l2) :=
  ⟨(C5_aggregate_perm_invariant [(['a'], ['2']), (['b'], ['3'])]
      [(['b'], ['3']), (['a'], ['2'])] (by decide)).1 ['a'],
   (C5_aggregate_perm_invariant [(['a'], ['2']), (['b'], ['3'])]
      [(['b'], ['3']), (['a'], ['2'])] (by decide)).2
     [(['a'], (2 : Int)), (['b'], 3)] (by decide)⟩

/-- C8: the reducer's accumulator is a Python `int`, which is
arbitrary-precision, so no maximum representable value exists and the overflow
condition of the claim cannot arise; the substantive requirement holds
exactly: every emitted total is the exact mathematical sum of its key's
counts — never wrapped, reduced modulo a word size, or clamped below any
bound the sum exceeds. -/
theorem C8_totals_exact_never_wrapped (pairs : List (Str × Str))
    (h : ∀ q ∈ pairs, (parseInt q.2).isSome) :
    ∀ l, aggregate pairs = some l → ∀ k t, (k, t) ∈ l →
      t = countSum pairs k ∧ ∀ B : Int, B < countSum pairs k → B < t := by
  intro l hl k t hkt
  rw [aggregate_of_allParse h] at hl
  have he : (distinctKeys pairs).map (fun j => (j, countSum pairs j)) = l :=
    Option.some.inj hl
  subst he
  rcases (mem_canonical.mp hkt) with ⟨_, rfl⟩
  exact ⟨rfl, fun B hB => hB⟩

/-- Witness for C8: two counts of 2^63 sum past the unsigned 64-bit maximum
and the emitted total is exactly 2^64, not a wrapped or clamped value. -/
theorem C8_totals_exact_never_wrapped_witness :
    (18446744073709551616 : Int) =
      countSum [(['k'], "9223372036854775808".toList),
        (['k'], "9223372036854775808".toList)] ['k'] ∧
    (2 ^ 64 - 1 : Int) < 18446744073709551616 := by
  have happ := C8_totals_exact_never_wrapped
    [(['k'], "9223372036854775808".toList), (['k'], "9223372036854775808".toList)]
    (by decide) [(['k'], (18446744073709551616 : Int))] (by decide)
    ['k'] 18446744073709551616 (by decide)
  refine ⟨happ.1, ?_⟩
  have hlt := happ.2 (2 ^ 64 - 1)
  apply hlt
  rw [← happ.1]
  decide

theorem coarseKey_eq (line : Str) :
    coarseKey line = typeTag (recordTypeOf line) ++ bucketOf line := by
  by_cases h : (splitTab line).length = 3
  · rcases List.length_eq_three.mp h with ⟨b, p, c, hs⟩
    simp only [coarseKey, recordTypeOf, bucketOf, if_pos h, typeTag]
    rw [splitTab_mapper_of_three hs, hs]
    simp
  · rcases hs : splitTab line with _ | ⟨f, fs⟩
    · exact absurd hs (splitTab_ne_nil line)
    · simp only [coarseKey, recordTypeOf, bucketOf, if_neg h, typeTag]
      rw [mapper_of_not_three h, splitTab_coloc_append hs, hs]
      simp

theorem fineKey_headI (line : Str) : (fineKey line).headI = coarseKey line := by
  unfold fineKey coarseKey
  rcases hs : splitTab (mapper line) with _ | ⟨f, fs⟩
  · exact absurd hs (splitTab_ne_nil _)
  · have e : (f :: fs).take 3 = f :: fs.take 2 := rfl
    rw [e]
    simp

/-- C9: the coarse distribution key of every mapper output (its first
tab-separated field, `<typePrefix>-<bucket>`) is a function of only the
record type and the bucket of the input line; the fine grouping key (the
first three fields) extends it — its first component is the coarse key — so
any two records with equal grouping keys have equal distribution keys and are
partitioned to the same worker. -/
theorem C9_coarse_key_partitioning :
    (∀ line, coarseKey line = typeTag (recordTypeOf line) ++ bucketOf line) ∧
    (∀ l1 l2, recordTypeOf l1 = recordTypeOf l2 → bucketOf l1 = bucketOf l2 →
      coarseKey l1 = coarseKey l2) ∧
    (∀ line, (fineKey line).headI = coarseKey line) ∧
    (∀ l1 l2, fineKey l1 = fineKey l2 → coarseKey l1 = coarseKey l2) := by
  refine ⟨coarseKey_eq, ?_, fineKey_headI, ?_⟩
  · intro l1 l2 ht hb
    rw [coarseKey_eq, coarseKey_eq, ht, hb]
  · intro l1 l2 hf
    rw [← fineKey_headI, ← fineKey_headI, hf]

/-- Witness for C9 on concrete frequency and cooccurrence lines. -/
theorem C9_coarse_key_partitioning_witness :
    coarseKey "201701\taa\t5".toList =
      typeTag (recordTypeOf "201701\taa\t5".toList) ++ bucketOf "201701\taa\t5".toList ∧
    coarseKey "201701\taa\t5".toList = coarseKey "201701\tbb\t7".toList ∧
    (fineKey "201701\taa\trukc\t2".toList).headI = coarseKey "201701\taa\trukc\t2".toList ∧
    coarseKey "201701\taa\trukc\t2".toList = coarseKey "201701\taa\trukc\t9".toList :=
  ⟨C9_coarse_key_partitioning.1 "201701\taa\t5".toList,
   C9_coarse_key_partitioning.2.1 "201701\taa\t5".toList "201701\tbb\t7".toList
     (by decide) (by decide),
   C9_coarse_key_partitioning.2.2.1 "201701\taa\trukc\t2".toList,
   C9_coarse_key_partitioning.2.2.2 "201701\taa\trukc\t2".toList
     "201701\taa\trukc\t9".toList (by decide)⟩

theorem headI_splitTab_keyValue (s : Str) :
    (splitTab (keyValueOf s).1).headI = (splitTab s).headI := by
  simp only [keyValueOf]
  by_cases h : (splitTab s).length ≤ 3
  · simp [h]
  · simp only [h, if_false]
    have hne : (splitTab s).take 3 ≠ [] := by
      rcases hs : splitTab s with _ | ⟨f, fs⟩
      · exact absurd hs (splitTab_ne_nil s)
      · simp
    have hnt : ∀ f ∈ (splitTab s).take 3, TAB ∉ f := fun f hf =>
      noTab_of_mem_splitTab (List.mem_of_mem_take hf)
    rw [splitTab_joinTab hne hnt]
    rcases hs : splitTab s with _ | ⟨f, fs⟩
    · exact absurd hs (splitTab_ne_nil s)
    · have e : (f :: fs).take 3 = f :: fs.take 2 := rfl
      rw [e]
      simp

theorem destination_of_line (l : Str) :
    outputDestination (keyValueOf (mapper l)).1 = coarseKey l := by
  unfold outputDestination coarseKey
  exact headI_splitTab_keyValue (mapper l)

/-- C7 fails on the code: with two buckets and both record shapes present,
routing produces four distinct destinations (one per `<typePrefix>-<bucket>`
value), not two. -/
theorem C7_counterexample_four_destinations :
    (pipeline ["201701\taa\t5".toList, "201702\tbb\t7".toList,
        "201701\taa\trukc\t2".toList, "201702\tbb\tcc\t3".toList]).map
      (fun out => ((out.map Prod.fst).dedup).length) = some 4 ∧ (4 : Nat) ≠ 2 :=
  ⟨by decide, by decide⟩

/-- C7 amended: the router maps each aggregated record to the destination
named by the first field of its key, `<typePrefix>-<bucket>`; the destinations
produced are exactly the `<typePrefix>-<bucket>` values of the input lines —
one destination per distinct (recordType, bucket) pair, not one per
recordType. -/
theorem C7_amended_destination_per_type_bucket (lines : List Str)
    (out : List (Str × Str)) (hout : pipeline lines = some out) (d : Str) :
    d ∈ out.map Prod.fst ↔
      ∃ l ∈ lines, d = typeTag (recordTypeOf l) ++ bucketOf l := by
  unfold pipeline at hout
  rcases Option.map_eq_some'.mp hout with ⟨recs, hrecs, hout2⟩
  subst hout2
  have hall := allParse_of_aggregate hrecs
  rw [aggregate_of_allParse hall] at hrecs
  have hc : recs = (distinctKeys (lines.map (fun l => keyValueOf (mapper l)))).map
      (fun j => (j, countSum (lines.map (fun l => keyValueOf (mapper l))) j)) :=
    (Option.some.inj hrecs).symm
  subst hc
  simp only [List.map_map, Function.comp]
  constructor
  · intro hd
    rcases List.mem_map.mp hd with ⟨j, hj, hdj⟩
    rcases List.mem_map.mp (List.mem_dedup.mp hj) with ⟨q, hq, hqj⟩
    rcases List.mem_map.mp hq with ⟨l, hl, hlq⟩
    refine ⟨l, hl, ?_⟩
    rw [← hdj, ← hqj, ← hlq]
    simp only [Function.comp_apply]
    rw [destination_of_line, coarseKey_eq]
  · rintro ⟨l, hl, rfl⟩
    refine List.mem_map.mpr ⟨(keyValueOf (mapper l)).1, ?_, ?_⟩
    · exact List.mem_dedup.mpr
        (List.mem_map.mpr ⟨keyValueOf (mapper l), List.mem_map.mpr ⟨l, hl, rfl⟩, rfl⟩)
    · simp only [Function.comp_apply]
      rw [destination_of_line, coarseKey_eq]

/-- Witness for the amended C7 on a single-line input. -/
theorem C7_amended_destination_per_type_bucket_witness :
    "freqn-201701".toList ∈
      [(("freqn-201701".toList : Str), "aa\t\t5".toList)].map Prod.fst ↔
      ∃ l ∈ [("201701\taa\t5".toList : Str)],
        "freqn-201701".toList = typeTag (recordTypeOf l) ++ bucketOf l :=
  C7_amended_destination_per_type_bucket ["201701\taa\t5".toList]
    [("freqn-201701".toList, "aa\t\t5".toList)] (by decide) "freqn-201701".toList

/-- C6 fails on the code: in the spec's example the third input line
`201701\taa\t\t5` has four tab-separated fields (its third field is empty), so
the mapper classifies it as Cooccurrence, both totals are routed to the
Cooccurrence destination `coloc-201701`, and no Frequency total is produced at
all. -/
theorem C6_counterexample_no_frequency_total :
    pipeline ["201701\taa\trukc\t2".toList, "201701\taa\trukc\t3".toList,
        "201701\taa\t\t5".toList] =
      some [("coloc-201701".toList, "aa\trukc\t5".toList),
        ("coloc-201701".toList, "aa\t\t5".toList)] ∧
    (splitTab "201701\taa\t\t5".toList).length = 4 ∧
    recordTypeOf "201701\taa\t\t5".toList = RecordType.Cooccurrence :=
  ⟨by decide, by decide, by decide⟩

/-- C6 amended: on the literal example input the pipeline yields the total
lines `aa\trukc\t5` and `aa\t\t5`, but both as Cooccurrence totals at the
destination `coloc-201701`; the line `aa\t\t5` appears as a Frequency total at
`freqn-201701` only when the third input line is the 3-field `201701\taa\t5`. -/
theorem C6_amended_pipeline_example :
    pipeline ["201701\taa\trukc\t2".toList, "201701\taa\trukc\t3".toList,
        "201701\taa\t\t5".toList] =
      some [("coloc-201701".toList, "aa\trukc\t5".toList),
        ("coloc-201701".toList, "aa\t\t5".toList)] ∧
    pipeline ["201701\taa\trukc\t2".toList, "201701\taa\trukc\t3".toList,
        "201701\taa\t5".toList] =
      some [("coloc-201701".toList, "aa\trukc\t5".toList),
        ("freqn-201701".toList, "aa\t\t5".toList)] :=
  ⟨by decide, by decide⟩
